import Mathlib

set_option maxRecDepth 100000

/-!
Verification development for a minimal single-node blockchain ledger
(`blockchain.py`): block construction, canonical-JSON hashing, proof of
work, chain validation, node registration and longest-chain consensus.

The Python code is shallowly embedded: the `Blockchain` class becomes a
state structure with explicit state-passing operations; `hashlib.sha256`
is embedded as a full executable SHA-256 (FIPS 180-4) over byte lists;
`json.dumps(block, sort_keys=True)` is embedded as a canonical JSON
renderer over key/value field lists; fallible code paths (Python
exceptions such as `chain[-1]` on an empty list) return `Option`.
-/

/-! ## SHA-256 (FIPS 180-4), executable over byte lists -/

/-- Truncation to a 32-bit word. -/
def u32 (n : Nat) : Nat := n % 4294967296

/-- Right rotation of a 32-bit word by `n` bits. -/
def rotr (n x : Nat) : Nat := u32 ((x >>> n) ||| (x <<< (32 - n)))

def bsig0 (x : Nat) : Nat := (rotr 2 x) ^^^ (rotr 13 x) ^^^ (rotr 22 x)

def bsig1 (x : Nat) : Nat := (rotr 6 x) ^^^ (rotr 11 x) ^^^ (rotr 25 x)

def ssig0 (x : Nat) : Nat := (rotr 7 x) ^^^ (rotr 18 x) ^^^ (x >>> 3)

def ssig1 (x : Nat) : Nat := (rotr 17 x) ^^^ (rotr 19 x) ^^^ (x >>> 10)

def chf (x y z : Nat) : Nat := (x &&& y) ^^^ ((x ^^^ 4294967295) &&& z)

def majf (x y z : Nat) : Nat := (x &&& y) ^^^ (x &&& z) ^^^ (y &&& z)

/-- The 64 SHA-256 round constants, written in decimal. -/
def sha256K : List Nat :=
  [1116352408, 1899447441, 3049323471, 3921009573, 961987163, 1508970993,
   2453635748, 2870763221, 3624381080, 310598401, 607225278, 1426881987,
   1925078388, 2162078206, 2614888103, 3248222580, 3835390401, 4022224774,
   264347078, 604807628, 770255983, 1249150122, 1555081692, 1996064986,
   2554220882, 2821834349, 2952996808, 3210313671, 3336571891, 3584528711,
   113926993, 338241895, 666307205, 773529912, 1294757372, 1396182291,
   1695183700, 1986661051, 2177026350, 2456956037, 2730485921, 2820302411,
   3259730800, 3345764771, 3516065817, 3600352804, 4094571909, 275423344,
   430227734, 506948616, 659060556, 883997877, 958139571, 1322822218,
   1537002063, 1747873779, 1955562222, 2024104815, 2227730452, 2361852424,
   2428436474, 2756734187, 3204031479, 3329325298]

/-- The initial SHA-256 hash state, written in decimal. -/
def sha256H0 : List Nat :=
  [1779033703, 3144134277, 1013904242, 2773480762,
   1359893119, 2600822924, 528734635, 1541459225]

/-- Message-schedule extension: `acc` holds the schedule so far in reverse
(newest word first); `n` more words are appended. -/
def extendW : Nat → List Nat → List Nat
  | 0, acc => acc
  | n + 1, acc =>
      extendW n
        (u32 (ssig1 (acc.getD 1 0) + acc.getD 6 0 + ssig0 (acc.getD 14 0) + acc.getD 15 0) :: acc)

/-- Full 64-word message schedule from a 16-word block. -/
def schedule (block : List Nat) : List Nat := (extendW 48 block.reverse).reverse

/-- One compression round on the eight-word working state. -/
def round8 (s : List Nat) (k w : Nat) : List Nat :=
  match s with
  | [a, b, c, d, e, f, g, h] =>
      let t1 := u32 (h + bsig1 e + chf e f g + k + w)
      let t2 := u32 (bsig0 a + majf a b c)
      [u32 (t1 + t2), a, b, c, u32 (d + t1), e, f, g]
  | _ => s

/-- Compression of one 16-word block into the running hash state. -/
def processBlock (h : List Nat) (block : List Nat) : List Nat :=
  let ws := schedule block
  let s := (sha256K.zip ws).foldl (fun s kw => round8 s kw.1 kw.2) h
  List.zipWith (fun x y => u32 (x + y)) h s

/-- Big-endian 8-byte encoding of a natural number. -/
def be64 (n : Nat) : List Nat :=
  [(n >>> 56) &&& 255, (n >>> 48) &&& 255, (n >>> 40) &&& 255, (n >>> 32) &&& 255,
   (n >>> 24) &&& 255, (n >>> 16) &&& 255, (n >>> 8) &&& 255, n &&& 255]

/-- SHA-256 padding: append `0x80`, zeros, and the 64-bit big-endian bit
length, reaching a multiple of 64 bytes. -/
def padBytes (msg : List Nat) : List Nat :=
  let L := msg.length
  msg ++ 0x80 :: List.replicate ((119 - L % 64) % 64) 0 ++ be64 (8 * L)

/-- Big-endian grouping of bytes into 32-bit words. -/
def toWords : List Nat → List Nat
  | b0 :: b1 :: b2 :: b3 :: rest =>
      (b0 * 16777216 + b1 * 65536 + b2 * 256 + b3) :: toWords rest
  | _ => []

/-- Splits a word list into chunks of 16 (incomplete trailing chunks are
dropped; padding guarantees none occur). -/
def chunk16 : List Nat → List (List Nat)
  | w0 :: w1 :: w2 :: w3 :: w4 :: w5 :: w6 :: w7 ::
    w8 :: w9 :: w10 :: w11 :: w12 :: w13 :: w14 :: w15 :: rest =>
      [w0, w1, w2, w3, w4, w5, w6, w7, w8, w9, w10, w11, w12, w13, w14, w15] :: chunk16 rest
  | _ => []

/-- SHA-256 of a byte list, as the final eight 32-bit words. -/
def sha256 (msg : List Nat) : List Nat :=
  (chunk16 (toWords (padBytes msg))).foldl processBlock sha256H0

/-- Lowercase hex digit for a nibble. -/
def hexChar (n : Nat) : Char :=
  if n < 10 then Char.ofNat (48 + n) else Char.ofNat (87 + n)

/-- Eight-character lowercase hex rendering of a 32-bit word. -/
def wordHex (w : Nat) : String :=
  String.mk ([28, 24, 20, 16, 12, 8, 4, 0].map fun sh => hexChar ((w >>> sh) &&& 15))

/-- The 64-character lowercase hex digest, as Python's `.hexdigest()`. -/
def sha256_hexdigest (msg : List Nat) : String :=
  String.join ((sha256 msg).map wordHex)

/-- UTF-8 bytes of one Unicode scalar value. -/
def utf8Char (c : Nat) : List Nat :=
  if c < 0x80 then [c]
  else if c < 0x800 then [0xc0 ||| (c >>> 6), 0x80 ||| (c &&& 0x3f)]
  else if c < 0x10000 then
    [0xe0 ||| (c >>> 12), 0x80 ||| ((c >>> 6) &&& 0x3f), 0x80 ||| (c &&& 0x3f)]
  else
    [0xf0 ||| (c >>> 18), 0x80 ||| ((c >>> 12) &&& 0x3f), 0x80 ||| ((c >>> 6) &&& 0x3f),
     0x80 ||| (c &&& 0x3f)]

/-- UTF-8 encoding of a string, as Python's `str.encode()`. -/
def utf8Encode (s : String) : List Nat := s.data.flatMap fun c => utf8Char c.toNat

/-! ## Canonical JSON rendering, as `json.dumps(.., sort_keys=True)` -/

/-- Four-character lowercase hex rendering of a 16-bit value. -/
def hex4 (n : Nat) : String :=
  String.mk ([12, 8, 4, 0].map fun sh => hexChar ((n >>> sh) &&& 15))

/-- Escaping of one character as CPython's `json.dumps` does with its
default `ensure_ascii=True`: `"` and `\x5c` get a backslash, common
controls get short escapes, every other character outside `0x20`-`0x7e`
becomes `\x5cuXXXX` (a surrogate pair beyond the BMP). -/
def jsonEscapeChar (c : Char) : String :=
  let n := c.toNat
  if c = '"' then "\\\""
  else if c = '\\' then "\\\\"
  else if c = '\n' then "\\n"
  else if c = '\r' then "\\r"
  else if c = '\t' then "\\t"
  else if n = 8 then "\\b"
  else if n = 12 then "\\f"
  else if n < 0x20 || n > 0x7e then
    if n < 0x10000 then "\\u" ++ hex4 n
    else
      "\\u" ++ hex4 (0xd800 + ((n - 0x10000) >>> 10)) ++
        "\\u" ++ hex4 (0xdc00 + ((n - 0x10000) &&& 0x3ff))
  else String.mk [c]

/-- JSON string literal for `s`. -/
def jsonStr (s : String) : String :=
  "\"" ++ String.join (s.data.map jsonEscapeChar) ++ "\""

/-- Code-point comparison of character lists: Python's string ordering,
used by `sort_keys=True`. -/
def charListLe : List Char → List Char → Bool
  | [], _ => true
  | _ :: _, [] => false
  | a :: as, b :: bs => if a = b then charListLe as bs else decide (a.toNat < b.toNat)

/-- Key order used when serializing a dict with sorted keys. -/
def strLe (a b : String) : Bool := charListLe a.data b.data

/-! ## Data model -/

/-- A pending or sealed transaction: `\x7bsender, recipient, amount\x7d`. -/
structure Transaction where
  sender : String
  recipient : String
  amount : Int
deriving DecidableEq

/-- JSON rendering of a transaction dict with keys sorted
(`amount`, `recipient`, `sender`). -/
def txJson (t : Transaction) : String :=
  "\x7b\"amount\": " ++ toString t.amount ++ ", \"recipient\": " ++ jsonStr t.recipient ++
    ", \"sender\": " ++ jsonStr t.sender ++ "\x7d"

/-- The dynamically typed `previous_hash` value: the genesis block stores
the integer sentinel `1`, every later block stores a hex-digest string. -/
inductive HashVal where
  | hint (n : Int)
  | hstr (s : String)
deriving DecidableEq

/-- A value stored in a block's dict. `vnum` carries the literal text the
JSON encoder produces for the float `timestamp` (timestamps are opaque
tokens here: no claim depends on their numeric value). -/
inductive FieldVal where
  | vint (n : Int)
  | vstr (s : String)
  | vnum (raw : String)
  | vtxs (l : List Transaction)
deriving DecidableEq

/-- JSON rendering of one field value. -/
def fieldValJson : FieldVal → String
  | .vint n => toString n
  | .vstr s => jsonStr s
  | .vnum raw => raw
  | .vtxs l => "[" ++ String.intercalate ", " (l.map txJson) ++ "]"

/-- Ordered insertion of a key/value pair by key. -/
def insertSorted (kv : String × FieldVal) :
    List (String × FieldVal) → List (String × FieldVal)
  | [] => [kv]
  | x :: xs => if strLe kv.1 x.1 then kv :: x :: xs else x :: insertSorted kv xs

/-- Sorting of a dict's fields by key, as `sort_keys=True` does. -/
def sortFields : List (String × FieldVal) → List (String × FieldVal)
  | [] => []
  | x :: xs => insertSorted x (sortFields xs)

/-- JSON object text for an already-ordered field list, with CPython's
default separators `", "` and `": "`. -/
def objJson (fs : List (String × FieldVal)) : String :=
  "\x7b" ++
    String.intercalate ", " (fs.map fun kv => jsonStr kv.1 ++ ": " ++ fieldValJson kv.2) ++
    "\x7d"

/-- Canonical serialization: fields sorted by name, then rendered:
`json.dumps(block, sort_keys=True)`. -/
def dumpsSorted (fs : List (String × FieldVal)) : String := objJson (sortFields fs)

/-- SHA-256 hex digest of the canonical serialization of a dict given as
a field list in insertion order. -/
def hashDict (fs : List (String × FieldVal)) : String :=
  sha256_hexdigest (utf8Encode (dumpsSorted fs))

/-- A block: a Python dict with the five fields built in `new_block`.
`timestamp` is the opaque JSON text of the float `time()` value. -/
structure Block where
  index : Int
  timestamp : String
  transactions : List Transaction
  proof : Int
  previous_hash : HashVal
deriving DecidableEq

/-- The block's dict fields in the insertion order `new_block` uses. -/
def blockFields (b : Block) : List (String × FieldVal) :=
  [("index", .vint b.index),
   ("timestamp", .vnum b.timestamp),
   ("transactions", .vtxs b.transactions),
   ("proof", .vint b.proof),
   ("previous_hash", match b.previous_hash with | .hint n => .vint n | .hstr s => .vstr s)]

/-- The ledger state: the `Blockchain` object's three attributes. -/
structure Blockchain where
  chain : List Block
  current_transactions : List Transaction
  nodes : Finset String

namespace Blockchain

/-- SHA-256 hash of a block over its key-sorted JSON serialization
(`Blockchain.hash`). -/
def hash (block : Block) : String := hashDict (blockFields block)

/-- The `last_block` property: `self.chain[-1]`, `none` when the chain is
empty (Python would raise `IndexError`). -/
def last_block (bc : Blockchain) : Option Block := bc.chain.getLast?

/-- Python truthiness of a `previous_hash` argument: `0` and `""` are
falsy, everything else truthy. -/
def truthy : HashVal → Bool
  | .hint n => n != 0
  | .hstr s => s != ""

/-- The `new_block` method. `ts` is the serialized `time()` value sampled
at the call. Returns `none` when Python would raise (`previous_hash`
absent or falsy while the chain is empty, so `self.chain[-1]` fails). -/
def new_block (bc : Blockchain) (ts : String) (proof : Int)
    (previous_hash : Option HashVal) : Option (Block × Blockchain) :=
  let phv? : Option HashVal :=
    match previous_hash with
    | some v => if truthy v then some v else bc.chain.getLast?.map fun b => .hstr (hash b)
    | none => bc.chain.getLast?.map fun b => .hstr (hash b)
  phv?.map fun phv =>
    let block : Block :=
      { index := (bc.chain.length : Int) + 1, timestamp := ts,
        transactions := bc.current_transactions, proof := proof, previous_hash := phv }
    (block, { bc with current_transactions := [], chain := bc.chain ++ [block] })

/-- The block/state pair `new_block` produces once the `previous_hash`
value `phv` to store has been determined. -/
def sealPair (bc : Blockchain) (ts : String) (proof : Int) (phv : HashVal) :
    Block × Blockchain :=
  let block : Block :=
    { index := (bc.chain.length : Int) + 1, timestamp := ts,
      transactions := bc.current_transactions, proof := proof, previous_hash := phv }
  (block, { bc with current_transactions := [], chain := bc.chain ++ [block] })

/-- The `new_transaction` method: appends to the pending pool and returns
`self.last_block['index'] + 1` (`none` when the chain is empty and the
index read raises). -/
def new_transaction (bc : Blockchain) (sender recipient : String) (amount : Int) :
    Option (Int × Blockchain) :=
  let bc' : Blockchain := { bc with
    current_transactions :=
      bc.current_transactions ++ [{ sender := sender, recipient := recipient, amount := amount }] }
  bc'.chain.getLast?.map fun lb => (lb.index + 1, bc')

/-- The `valid_proof` static method: digest of the concatenated decimal
texts, first four hex characters compared with `"1234"`. -/
def valid_proof (last_proof proof : Int) : Bool :=
  let guess := utf8Encode (toString last_proof ++ toString proof)
  let guess_hash := sha256_hexdigest guess
  guess_hash.take 4 == "1234"

/-- The `proof_of_work` loop: `proof = 0; while not valid_proof: proof += 1`.
The loop is total exactly when some valid proof exists, so the embedding
takes that existence as a hypothesis and `Nat.find` performs the same
minimal linear search from `0`. -/
def proof_of_work (last_proof : Int)
    (h : ∃ p : Nat, valid_proof last_proof (Int.ofNat p) = true) : Nat :=
  Nat.find h

/-- The constructor: empty chain, pool and node set, then a genesis block
sealed with `previous_hash=1, proof=100`. The fallback branch is
unreachable because the integer sentinel `1` is truthy. -/
def initBlockchain (ts0 : String) : Blockchain :=
  let bc0 : Blockchain := { chain := [], current_transactions := [], nodes := ∅ }
  match bc0.new_block ts0 100 (some (.hint 1)) with
  | some (_, bc) => bc
  | none => bc0

end Blockchain

/-! ## `urlparse` netloc extraction

Modelled from CPython's `urllib.parse.urlsplit` (the source misspells
that module name as `urllib.prase` in its import line): strip leading
C0-control/space characters, delete tab/CR/LF, strip a leading
`scheme:` when the text before the first colon is an ASCII letter
followed by scheme characters, and return the text between `//` and the
first `/`, `?` or `#` — the empty string when the remainder does not
start with `//`. -/

/-- Characters allowed in a URL scheme. -/
def isSchemeChar (c : Char) : Bool := c.isAlpha || c.isDigit || c = '+' || c = '-' || c = '.'

/-- Removal of a leading `scheme:` as `urlsplit` does. -/
def dropScheme (cs : List Char) : List Char :=
  match cs.findIdx? (· = ':') with
  | some i =>
      if 0 < i ∧ (cs.headD ' ').isAlpha ∧ (cs.take i).all isSchemeChar
      then cs.drop (i + 1) else cs
  | none => cs

/-- The netloc runs until the first `/`, `?` or `#`. -/
def takeNetloc : List Char → List Char
  | [] => []
  | c :: cs => if c = '/' || c = '?' || c = '#' then [] else c :: takeNetloc cs

/-- `urlparse(address).netloc`. -/
def urlparseNetloc (address : String) : String :=
  let cs := address.data.dropWhile fun c => c.toNat ≤ 0x20
  let cs := cs.filter fun c => !(c = '\t' || c = '\r' || c = '\n')
  match dropScheme cs with
  | '/' :: '/' :: rest => String.mk (takeNetloc rest)
  | _ => ""

namespace Blockchain

/-- The `register_node` method: insert `urlparse(address).netloc` into
the node set. -/
def register_node (bc : Blockchain) (address : String) : Blockchain :=
  { bc with nodes := insert (urlparseNetloc address) bc.nodes }

/-- Body of the `valid_chain` while loop: walks the tail carrying the
previous block, failing on a broken hash link or an invalid proof. -/
def validWalk (last_block : Block) : List Block → Bool
  | [] => true
  | block :: rest =>
      if block.previous_hash != HashVal.hstr (hash last_block) then false
      else if !valid_proof last_block.proof block.proof then false
      else validWalk block rest

/-- The `valid_chain` method. It reads `chain[0]` before the loop, so the
empty chain raises `IndexError` (`none`) rather than returning a verdict. -/
def valid_chain (chain : List Block) : Option Bool :=
  match chain with
  | [] => none
  | first :: rest => some (validWalk first rest)

/-- One peer's fetch outcome as seen by `resolve_conflicts`: `none` for a
non-200 response, otherwise the reported `length` and the parsed chain. -/
abbrev FetchResult : Type := Option (Int × List Block)

/-- The peer loop of `resolve_conflicts`, carrying `max_length` and the
best candidate. A candidate whose reported length beats the bound is
validated; `valid_chain` raising on an empty candidate (`none`) aborts
the whole call, mirroring the uncaught Python exception. -/
def resolve_loop (max_length : Int) (new_chain : Option (List Block)) :
    List FetchResult → Option (Int × Option (List Block))
  | [] => some (max_length, new_chain)
  | none :: rest => resolve_loop max_length new_chain rest
  | some (length, chain) :: rest =>
      if max_length < length then
        match valid_chain chain with
        | none => none
        | some true => resolve_loop length (some chain) rest
        | some false => resolve_loop max_length new_chain rest
      else resolve_loop max_length new_chain rest

/-- The `resolve_conflicts` method over the peers' fetch outcomes.
`max_length` starts at the local chain's length; afterwards the Python
truthiness test `if new_chain:` decides between replacing the chain
(returning `True`) and leaving the ledger untouched (returning `False`). -/
def resolve_conflicts (bc : Blockchain) (responses : List FetchResult) :
    Option (Bool × Blockchain) :=
  match resolve_loop (bc.chain.length : Int) none responses with
  | none => none
  | some (_, new_chain) =>
      match new_chain with
      | some chain =>
          if chain.isEmpty then some (false, bc)
          else some (true, { bc with chain := chain })
      | none => some (false, bc)

/-- One `/mine` request against state `bc`, producing `bc'`: read the last
block, find a proof for its `proof` with `proof_of_work` (whose
termination is the embedded existence hypothesis), record the reward
transaction `\x7bsender: "0", recipient: node_identifier, amount: 1\x7d`,
and seal with `previous_hash = hash(last_block)`. `ts` is the `time()`
text sampled inside `new_block`. -/
def MineStep (ts node_identifier : String) (bc bc' : Blockchain) : Prop :=
  ∃ (lb : Block) (idx : Int) (bc₁ : Blockchain) (blk : Block)
    (h : ∃ p : Nat, valid_proof lb.proof (Int.ofNat p) = true),
    bc.last_block = some lb ∧
    bc.new_transaction "0" node_identifier 1 = some (idx, bc₁) ∧
    bc₁.new_block ts (Int.ofNat (proof_of_work lb.proof h)) (some (.hstr (hash lb))) =
      some (blk, bc')

/-- Ledger states produced by constructing a fresh blockchain and then
performing any sequence of `/mine` operations. -/
inductive Reachable : Blockchain → Prop
  | init (ts0 : String) : Reachable (initBlockchain ts0)
  | mine (ts node_identifier : String) (bc bc' : Blockchain) :
      Reachable bc → MineStep ts node_identifier bc bc' → Reachable bc'

end Blockchain

/-- The genesis block a ledger constructed at serialized time `ts0` holds. -/
def genesisBlock (ts0 : String) : Block :=
  { index := 1, timestamp := ts0, transactions := [], proof := 100, previous_hash := .hint 1 }

/-- The hash-linkage and proof-validity relation between two adjacent
blocks that the spec's chain invariant and `valid_chain` both use. -/
def linkOK (p c : Block) : Prop :=
  c.previous_hash = HashVal.hstr (Blockchain.hash p) ∧
    Blockchain.valid_proof p.proof c.proof = true

instance (p c : Block) : Decidable (linkOK p c) := by unfold linkOK; infer_instance

/-! ## Known-answer tests of the embedded primitives -/

example : sha256_hexdigest (utf8Encode "abc") =
    "ba7816bf8f01cfea414140de5dae2223b00361a396177a9cb410ff61f20015ad" := by decide

example : sha256_hexdigest (utf8Encode "") =
    "e3b0c44298fc1c149afbf4c8996fb92427ae41e4649b934ca495991b7852b855" := by decide

example : Blockchain.valid_proof 100 57432 = true := by decide

example : Blockchain.valid_proof 100 57431 = false := by decide

example :
    dumpsSorted (blockFields
      { index := 1, timestamp := "1.5",
        transactions := [{ sender := "0", recipient := "me", amount := 1 }],
        proof := 100, previous_hash := .hint 1 }) =
    "\x7b\"index\": 1, \"previous_hash\": 1, \"proof\": 100, \"timestamp\": 1.5, \"transactions\": [\x7b\"amount\": 1, \"recipient\": \"me\", \"sender\": \"0\"\x7d]\x7d" := by
  decide

example :
    Blockchain.hash
      { index := 1, timestamp := "1.5",
        transactions := [{ sender := "0", recipient := "me", amount := 1 }],
        proof := 100, previous_hash := .hint 1 } =
    "83e493f32d7bd9c191f73cae08a242ee9eb2c73c07642ea70c03069e96712495" := by decide

example : urlparseNetloc "http://192.168.1.1:5000" = "192.168.1.1:5000" := by decide

example : urlparseNetloc "192.168.1.1:5000/extra" = "" := by decide

example : urlparseNetloc "https://example.com/path?q=1" = "example.com" := by decide

/-! ## C4: `valid_proof` characterization -/

/-- C4: for all integers `lastProof` and `proof`, `ValidProof` returns
true iff the SHA-256 hex digest of the UTF-8 concatenation of their
decimal texts starts with the four hex characters `"1234"`. -/
theorem valid_proof_iff_digest (last_proof proof : Int) :
    Blockchain.valid_proof last_proof proof = true ↔
      (sha256_hexdigest (utf8Encode (toString last_proof ++ toString proof))).take 4 =
        "1234" := by
  simp [Blockchain.valid_proof]

/-! ## C5: `proof_of_work` returns the least valid proof -/

/-- C5: whenever some non-negative proof is valid against `lastProof`,
`proof_of_work` terminates and returns the smallest such proof (the
linear search from `0`). -/
theorem proof_of_work_finds_least (last_proof : Int)
    (h : ∃ p : Nat, Blockchain.valid_proof last_proof (Int.ofNat p) = true) :
    Blockchain.valid_proof last_proof (Int.ofNat (Blockchain.proof_of_work last_proof h)) =
        true ∧
      ∀ q : Nat, q < Blockchain.proof_of_work last_proof h →
        Blockchain.valid_proof last_proof (Int.ofNat q) = false := by
  refine ⟨Nat.find_spec h, fun q hq => ?_⟩
  simpa using Nat.find_min h hq

/-- Witness for C5 at `lastProof = 100`, whose least valid proof is `57432`. -/
theorem proof_of_work_finds_least_witness :
    Blockchain.valid_proof 100 (Int.ofNat 57432) = true ∧
      Blockchain.valid_proof 100
        (Int.ofNat (Blockchain.proof_of_work 100 ⟨57432, by decide⟩)) = true :=
  ⟨by decide, (proof_of_work_finds_least 100 ⟨57432, by decide⟩).1⟩

/-! ## C7: the freshly constructed ledger -/

/-- C7: a fresh ledger has exactly one block, whose index is `1`, whose
proof is `100` and whose `previous_hash` is the integer sentinel `1`,
and its pending transaction pool is empty. -/
theorem fresh_ledger_spec (ts0 : String) :
    (Blockchain.initBlockchain ts0).chain = [genesisBlock ts0] ∧
      (Blockchain.initBlockchain ts0).chain.length = 1 ∧
      (Blockchain.initBlockchain ts0).last_block = some (genesisBlock ts0) ∧
      (genesisBlock ts0).index = 1 ∧
      (genesisBlock ts0).proof = 100 ∧
      (genesisBlock ts0).previous_hash = HashVal.hint 1 ∧
      (Blockchain.initBlockchain ts0).current_transactions = [] :=
  ⟨rfl, rfl, rfl, rfl, rfl, rfl, rfl⟩

/-! ## C10: `new_transaction` appends to the pool and frames everything else -/

/-- C10: on any ledger state whose chain is non-empty, `new_transaction`
appends the transaction to the end of the pending pool, returns the last
block's index plus one, and leaves the chain and the node set unchanged. -/
theorem new_transaction_spec (bc : Blockchain) (sender recipient : String) (amount : Int)
    (lb : Block) (hlb : bc.last_block = some lb) :
    ∃ bc' : Blockchain,
      bc.new_transaction sender recipient amount = some (lb.index + 1, bc') ∧
        bc'.current_transactions =
          bc.current_transactions ++
            [{ sender := sender, recipient := recipient, amount := amount }] ∧
        bc'.chain = bc.chain ∧
        bc'.nodes = bc.nodes := by
  refine ⟨{ bc with current_transactions :=
      bc.current_transactions ++
        [{ sender := sender, recipient := recipient, amount := amount }] }, ?_, rfl, rfl, rfl⟩
  simp only [Blockchain.new_transaction]
  rw [show ({ bc with current_transactions :=
      bc.current_transactions ++
        [{ sender := sender, recipient := recipient, amount := amount }] } :
      Blockchain).chain.getLast? = some lb from hlb]
  rfl

/-- Witness for C10 on a fresh ledger. -/
theorem new_transaction_spec_witness :
    (Blockchain.initBlockchain "1.5").last_block = some (genesisBlock "1.5") ∧
      ∃ bc' : Blockchain,
        (Blockchain.initBlockchain "1.5").new_transaction "alice" "bob" 3 =
            some ((genesisBlock "1.5").index + 1, bc') ∧
          bc'.current_transactions =
            (Blockchain.initBlockchain "1.5").current_transactions ++
              [{ sender := "alice", recipient := "bob", amount := 3 }] ∧
          bc'.chain = (Blockchain.initBlockchain "1.5").chain ∧
          bc'.nodes = (Blockchain.initBlockchain "1.5").nodes :=
  ⟨rfl, new_transaction_spec (Blockchain.initBlockchain "1.5") "alice" "bob" 3
    (genesisBlock "1.5") rfl⟩

/-! ## C6: `new_block` seals the pending pool into a new block -/

/-- C6 (amended): on a ledger with a non-empty chain, `new_block` builds
a block with `index = len(chain)+1`, the entire pending pool as its
transactions, the given proof, and `previous_hash` equal to the given
value when that value is provided and truthy (Python's `or`), falling
back to the hash of the last block when it is absent or falsy; the block
is appended and the pool is left empty. -/
theorem new_block_spec (bc : Blockchain) (ts : String) (proof : Int)
    (previous_hash : Option HashVal) (lb : Block) (hlb : bc.last_block = some lb) :
    ∃ (blk : Block) (bc' : Blockchain),
      bc.new_block ts proof previous_hash = some (blk, bc') ∧
        blk.index = (bc.chain.length : Int) + 1 ∧
        blk.timestamp = ts ∧
        blk.transactions = bc.current_transactions ∧
        blk.proof = proof ∧
        blk.previous_hash =
          (match previous_hash with
           | some v => if Blockchain.truthy v then v else .hstr (Blockchain.hash lb)
           | none => .hstr (Blockchain.hash lb)) ∧
        bc'.chain = bc.chain ++ [blk] ∧
        bc'.current_transactions = [] ∧
        bc'.nodes = bc.nodes := by
  have hlb' : bc.chain.getLast? = some lb := hlb
  have key : ∀ phv : HashVal,
      bc.new_block ts proof previous_hash = some (Blockchain.sealPair bc ts proof phv) →
      phv =
        (match previous_hash with
         | some v => if Blockchain.truthy v then v else .hstr (Blockchain.hash lb)
         | none => .hstr (Blockchain.hash lb)) →
      ∃ (blk : Block) (bc' : Blockchain),
        bc.new_block ts proof previous_hash = some (blk, bc') ∧
          blk.index = (bc.chain.length : Int) + 1 ∧
          blk.timestamp = ts ∧
          blk.transactions = bc.current_transactions ∧
          blk.proof = proof ∧
          blk.previous_hash =
            (match previous_hash with
             | some v => if Blockchain.truthy v then v else .hstr (Blockchain.hash lb)
             | none => .hstr (Blockchain.hash lb)) ∧
          bc'.chain = bc.chain ++ [blk] ∧
          bc'.current_transactions = [] ∧
          bc'.nodes = bc.nodes := by
    intro phv heq hphv
    exact ⟨(Blockchain.sealPair bc ts proof phv).1, (Blockchain.sealPair bc ts proof phv).2,
      heq, rfl, rfl, rfl, rfl, hphv, rfl, rfl, rfl⟩
  match previous_hash with
  | none =>
      refine key (.hstr (Blockchain.hash lb)) ?_ rfl
      simp only [Blockchain.new_block, Blockchain.sealPair, hlb']
      rfl
  | some v =>
      by_cases hv : Blockchain.truthy v = true
      · refine key v ?_ (by simp [hv])
        simp only [Blockchain.new_block, Blockchain.sealPair, hv, if_true]
        rfl
      · refine key (.hstr (Blockchain.hash lb)) ?_ (by simp [hv])
        simp only [Blockchain.new_block, Blockchain.sealPair, hv, if_false,
          Bool.false_eq_true, hlb']
        rfl

/-- Witness for C6 on a fresh ledger with a provided (truthy) hash. -/
theorem new_block_spec_witness :
    (Blockchain.initBlockchain "1.5").last_block = some (genesisBlock "1.5") ∧
      ∃ (blk : Block) (bc' : Blockchain),
        (Blockchain.initBlockchain "1.5").new_block "2.5" 7 (some (.hstr "ab")) =
            some (blk, bc') ∧
          blk.index = ((Blockchain.initBlockchain "1.5").chain.length : Int) + 1 ∧
          blk.timestamp = "2.5" ∧
          blk.transactions = (Blockchain.initBlockchain "1.5").current_transactions ∧
          blk.proof = 7 ∧
          blk.previous_hash =
            (match (some (.hstr "ab") : Option HashVal) with
             | some v =>
                 if Blockchain.truthy v then v
                 else .hstr (Blockchain.hash (genesisBlock "1.5"))
             | none => .hstr (Blockchain.hash (genesisBlock "1.5"))) ∧
          bc'.chain = (Blockchain.initBlockchain "1.5").chain ++ [blk] ∧
          bc'.current_transactions = [] ∧
          bc'.nodes = (Blockchain.initBlockchain "1.5").nodes :=
  ⟨rfl, new_block_spec (Blockchain.initBlockchain "1.5") "2.5" 7 (some (.hstr "ab"))
    (genesisBlock "1.5") rfl⟩

/-- Counterexample to C6 as stated: providing the empty-string
`previous_hash` does not store the provided value — Python's
`previous_hash or self.hash(...)` treats `""` as absent and stores the
hash of the last block instead. -/
theorem new_block_falsy_cex :
    ((Blockchain.initBlockchain "1.5").new_block "2.5" 7 (some (.hstr ""))).map
        (fun r => r.1.previous_hash) ≠ some (HashVal.hstr "") := by
  decide

/-! ## C9: `register_node` and `urlparse` netloc extraction -/

/-- C9 (amended): `register_node` inserts `urlparse(address).netloc`
into the node set and is idempotent; an address with a scheme such as
`"http://192.168.1.1:5000"` stores the host:port form, but a scheme-less
address such as `"192.168.1.1:5000/extra"` has an empty netloc (the
whole text parses as a path), so the empty string is stored instead of
a host:port. -/
theorem register_node_spec (bc : Blockchain) :
    (∀ address : String,
        (bc.register_node address).nodes = insert (urlparseNetloc address) bc.nodes) ∧
      (bc.register_node "http://192.168.1.1:5000").nodes =
        insert "192.168.1.1:5000" bc.nodes ∧
      (bc.register_node "192.168.1.1:5000/extra").nodes = insert "" bc.nodes ∧
      ∀ address : String,
        (bc.register_node address).register_node address = bc.register_node address := by
  refine ⟨fun _ => rfl, ?_, ?_, fun address => ?_⟩
  · simp only [Blockchain.register_node]
    rw [show urlparseNetloc "http://192.168.1.1:5000" = "192.168.1.1:5000" by decide]
  · simp only [Blockchain.register_node]
    rw [show urlparseNetloc "192.168.1.1:5000/extra" = "" by decide]
  · simp [Blockchain.register_node]

/-- Counterexample to C9 as stated: registering the scheme-less address
`"192.168.1.1:5000/extra"` does not store the host:port form. -/
theorem register_node_schemeless_cex :
    "192.168.1.1:5000" ∉
      ((Blockchain.initBlockchain "1.5").register_node "192.168.1.1:5000/extra").nodes ∧
      "" ∈
        ((Blockchain.initBlockchain "1.5").register_node "192.168.1.1:5000/extra").nodes := by
  constructor <;> decide

/-! ## C2: `valid_chain` checks every adjacent pair -/

/-- The loop of `valid_chain` accepts exactly when every adjacent pair of
the walked chain is hash-linked with a valid proof. -/
theorem validWalk_iff (first : Block) (rest : List Block) :
    Blockchain.validWalk first rest = true ↔ List.Chain' linkOK (first :: rest) := by
  induction rest generalizing first with
  | nil => simp [Blockchain.validWalk]
  | cons b bs ih =>
      rw [List.chain'_cons]
      by_cases h1 : b.previous_hash = HashVal.hstr (Blockchain.hash first)
      · by_cases h2 : Blockchain.valid_proof first.proof b.proof = true
        · simp [Blockchain.validWalk, h1, h2, ih b, linkOK]
        · simp [Blockchain.validWalk, h1, h2, linkOK]
      · simp [Blockchain.validWalk, h1, linkOK]

/-- C2 (amended): on every non-empty chain, `valid_chain` returns true
iff every adjacent pair `(prev, curr)` satisfies
`curr.previous_hash == Hash(prev)` and `ValidProof(prev.proof,
curr.proof)`, and returns false iff some adjacent pair violates one of
the two checks; a chain of length exactly 1 is vacuously valid. The
empty chain is not accepted vacuously: `chain[0]` raises. -/
theorem valid_chain_spec (chain : List Block) (h : chain ≠ []) :
    (Blockchain.valid_chain chain = some true ↔ List.Chain' linkOK chain) ∧
      (Blockchain.valid_chain chain = some false ↔ ¬ List.Chain' linkOK chain) := by
  match chain, h with
  | first :: rest, _ =>
      constructor
      · simpa [Blockchain.valid_chain] using validWalk_iff first rest
      · rw [Blockchain.valid_chain]
        rw [show (some (Blockchain.validWalk first rest) = some false ↔
            Blockchain.validWalk first rest = false) from by simp]
        rw [← validWalk_iff first rest]
        simp

/-- Witness for C2 on the singleton fresh chain and on a two-block chain
with a broken hash link. -/
theorem valid_chain_spec_witness :
    ([genesisBlock "1.5"] ≠ ([] : List Block) ∧
      (Blockchain.valid_chain [genesisBlock "1.5"] = some true ↔
        List.Chain' linkOK [genesisBlock "1.5"])) ∧
      ((Blockchain.valid_chain [genesisBlock "1.5", genesisBlock "2.5"] = some false ↔
        ¬ List.Chain' linkOK [genesisBlock "1.5", genesisBlock "2.5"])) :=
  ⟨⟨by decide, (valid_chain_spec [genesisBlock "1.5"] (by decide)).1⟩,
    (valid_chain_spec [genesisBlock "1.5", genesisBlock "2.5"] (by decide)).2⟩

/-- Counterexample to C2 as stated: on the empty chain, `valid_chain`
does not return true (or anything) — reading `chain[0]` raises
`IndexError` before the vacuous loop is reached. -/
theorem valid_chain_empty_cex :
    Blockchain.valid_chain ([] : List Block) = none ∧
      Blockchain.valid_chain ([] : List Block) ≠ some true :=
  ⟨rfl, by decide⟩

/-! ## C8: the hash is independent of dict construction order -/

/-- Key comparison used between dict fields. -/
def keyLe (a b : String × FieldVal) : Prop := strLe a.1 b.1 = true

theorem charListLe_total (a : List Char) : ∀ b, charListLe a b = true ∨ charListLe b a = true := by
  induction a with
  | nil => intro b; left; rfl
  | cons x xs ih =>
      intro b
      cases b with
      | nil => right; rfl
      | cons y ys =>
          by_cases hxy : x = y
          · subst hxy
            simpa [charListLe] using ih ys
          · have hne : x.toNat ≠ y.toNat := by
              intro h
              exact hxy (by
                have := congrArg Char.ofNat h
                rwa [Char.ofNat_toNat, Char.ofNat_toNat] at this)
            rcases Nat.lt_or_ge x.toNat y.toNat with hlt | hge
            · left; simp [charListLe, hxy, hlt]
            · right
              have hyx : Ne y x := fun h => hxy h.symm
              have : y.toNat < x.toNat := lt_of_le_of_ne hge (fun h => hne h.symm)
              simp [charListLe, hyx, this]

theorem charListLe_trans (a : List Char) :
    ∀ b c, charListLe a b = true → charListLe b c = true → charListLe a c = true := by
  induction a with
  | nil => intro b c _ _; rfl
  | cons x xs ih =>
      intro b c h1 h2
      cases b with
      | nil => simp [charListLe] at h1
      | cons y ys =>
          cases c with
          | nil => simp [charListLe] at h2
          | cons z zs =>
              by_cases hxy : x = y
              · subst hxy
                by_cases hyz : x = z
                · subst hyz
                  simp only [charListLe, if_pos rfl] at h1 h2 ⊢
                  exact ih ys zs h1 h2
                · simp only [charListLe, if_pos rfl] at h1
                  simpa [charListLe, hyz] using h2
              · by_cases hyz : y = z
                · subst hyz
                  simpa [charListLe, hxy] using h1
                · simp only [charListLe, if_neg hxy, decide_eq_true_eq] at h1
                  simp only [charListLe, if_neg hyz, decide_eq_true_eq] at h2
                  have hxz : x.toNat < z.toNat := lt_trans h1 h2
                  have : x ≠ z := by
                    intro h; subst h; omega
                  simp [charListLe, this, hxz]

theorem charListLe_antisymm (a : List Char) :
    ∀ b, charListLe a b = true → charListLe b a = true → a = b := by
  induction a with
  | nil =>
      intro b h1 h2
      cases b with
      | nil => rfl
      | cons y ys => simp [charListLe] at h2
  | cons x xs ih =>
      intro b h1 h2
      cases b with
      | nil => simp [charListLe] at h1
      | cons y ys =>
          by_cases hxy : x = y
          · subst hxy
            simp only [charListLe, if_pos rfl] at h1 h2
            rw [ih ys h1 h2]
          · have hyx : Ne y x := fun h => hxy h.symm
            simp only [charListLe, if_neg hxy, decide_eq_true_eq] at h1
            simp only [charListLe, if_neg hyx, decide_eq_true_eq] at h2
            omega

theorem strLe_antisymm {s t : String} (h1 : strLe s t = true) (h2 : strLe t s = true) :
    s = t := by
  obtain ⟨sd⟩ := s
  obtain ⟨td⟩ := t
  exact congrArg String.mk (charListLe_antisymm sd td h1 h2)

theorem insertSorted_perm (x : String × FieldVal) (l : List (String × FieldVal)) :
    List.Perm (insertSorted x l) (x :: l) := by
  induction l with
  | nil => rfl
  | cons y ys ih =>
      rw [insertSorted]
      by_cases h : strLe x.1 y.1 = true
      · rw [if_pos h]
      · rw [if_neg h]
        exact (ih.cons y).trans (List.Perm.swap x y ys)

theorem sortFields_perm (l : List (String × FieldVal)) : List.Perm (sortFields l) l := by
  induction l with
  | nil => rfl
  | cons x xs ih => exact (insertSorted_perm x (sortFields xs)).trans (ih.cons x)

theorem insertSorted_pairwise (x : String × FieldVal) (l : List (String × FieldVal))
    (hl : l.Pairwise keyLe) : (insertSorted x l).Pairwise keyLe := by
  induction l with
  | nil => simp [insertSorted, List.pairwise_cons]
  | cons y ys ih =>
      rw [List.pairwise_cons] at hl
      obtain ⟨hy, hys⟩ := hl
      rw [insertSorted]
      by_cases h : strLe x.1 y.1 = true
      · rw [if_pos h, List.pairwise_cons]
        refine ⟨?_, List.pairwise_cons.2 ⟨hy, hys⟩⟩
        intro z hz
        rcases List.mem_cons.1 hz with rfl | hz'
        · exact h
        · exact charListLe_trans _ _ _ h (hy z hz')
      · rw [if_neg h, List.pairwise_cons]
        refine ⟨?_, ih hys⟩
        intro z hz
        have hz' : z ∈ x :: ys := (insertSorted_perm x ys).subset hz
        rcases List.mem_cons.1 hz' with hzx | hz''
        · subst hzx
          rcases charListLe_total z.1.data y.1.data with hxy | hyx
          · exact absurd hxy h
          · exact hyx
        · exact hy z hz''

theorem sortFields_pairwise (l : List (String × FieldVal)) :
    (sortFields l).Pairwise keyLe := by
  induction l with
  | nil => exact List.Pairwise.nil
  | cons x xs ih => exact insertSorted_pairwise x (sortFields xs) ih

theorem sortFields_eq_of_perm (fs1 fs2 : List (String × FieldVal))
    (hperm : List.Perm fs1 fs2)
    (hnd : (fs1.map Prod.fst).Nodup) : sortFields fs1 = sortFields fs2 := by
  have hkeys1 : fs1.Pairwise fun a b => a.1 ≠ b.1 := by
    rw [List.Nodup, List.pairwise_map] at hnd
    exact hnd
  have hsymm : ∀ {a b : String × FieldVal}, a.1 ≠ b.1 → b.1 ≠ a.1 :=
    fun h h' => h h'.symm
  have hkeys2 : fs2.Pairwise fun a b => a.1 ≠ b.1 := (hperm.pairwise_iff hsymm).1 hkeys1
  have hks1 : (sortFields fs1).Pairwise fun a b => a.1 ≠ b.1 :=
    ((sortFields_perm fs1).pairwise_iff hsymm).2 hkeys1
  have hks2 : (sortFields fs2).Pairwise fun a b => a.1 ≠ b.1 :=
    ((sortFields_perm fs2).pairwise_iff hsymm).2 hkeys2
  have hperm' : List.Perm (sortFields fs1) (sortFields fs2) :=
    (sortFields_perm fs1).trans (hperm.trans (sortFields_perm fs2).symm)
  have hs1 : (sortFields fs1).Pairwise fun a b => keyLe a b ∧ a.1 ≠ b.1 :=
    (sortFields_pairwise fs1).and hks1
  have hs2 : (sortFields fs2).Pairwise fun a b => keyLe a b ∧ a.1 ≠ b.1 :=
    (sortFields_pairwise fs2).and hks2
  haveI : IsAntisymm (String × FieldVal) fun a b => keyLe a b ∧ a.1 ≠ b.1 :=
    ⟨fun a b hab hba => absurd (strLe_antisymm hab.1 hba.1) hab.2⟩
  exact List.eq_of_perm_of_sorted hperm' hs1 hs2

theorem blockFields_keys_nodup (b : Block) : ((blockFields b).map Prod.fst).Nodup := by
  show (["index", "timestamp", "transactions", "proof", "previous_hash"] :
    List String).Nodup
  decide

/-- C8: the hash of a block dict depends only on its key/value content:
any insertion order of the five fields (a permutation of the dict built
by `new_block`) serializes — after the `sort_keys=True` sort — to the
same canonical text and hence the same SHA-256 digest. -/
theorem hash_independent_of_order (b : Block) (fs : List (String × FieldVal))
    (hperm : List.Perm fs (blockFields b)) : hashDict fs = Blockchain.hash b := by
  show hashDict fs = hashDict (blockFields b)
  unfold hashDict dumpsSorted
  rw [sortFields_eq_of_perm fs (blockFields b) hperm
    (((hperm.map Prod.fst).nodup_iff).2 (blockFields_keys_nodup b))]

/-- Witness for C8: a block dict built with its fields in reversed
insertion order hashes identically to the canonically built one. -/
theorem hash_independent_of_order_witness :
    List.Perm (blockFields (genesisBlock "1.5")).reverse (blockFields (genesisBlock "1.5")) ∧
      hashDict (blockFields (genesisBlock "1.5")).reverse =
        Blockchain.hash (genesisBlock "1.5") :=
  ⟨List.reverse_perm _, hash_independent_of_order (genesisBlock "1.5") _ (List.reverse_perm _)⟩

/-! ## C1: mining preserves the chain invariant -/

theorem new_transaction_parts (bc : Blockchain) (s r : String) (a : Int)
    (idx : Int) (bc₁ : Blockchain) (h : bc.new_transaction s r a = some (idx, bc₁)) :
    bc₁.chain = bc.chain ∧ bc₁.nodes = bc.nodes ∧
      bc₁.current_transactions =
        bc.current_transactions ++ [{ sender := s, recipient := r, amount := a }] := by
  have h' : (bc.chain.getLast?).map
      (fun lb => (lb.index + 1,
        ({ bc with current_transactions :=
            bc.current_transactions ++
              [{ sender := s, recipient := r, amount := a }] } : Blockchain))) =
      some (idx, bc₁) := h
  cases hg : bc.chain.getLast? with
  | none => rw [hg] at h'; exact absurd h' (by simp)
  | some lb =>
      rw [hg] at h'
      simp only [Option.map_some', Option.some_inj, Prod.mk.injEq] at h'
      rw [← h'.2]
      exact ⟨rfl, rfl, rfl⟩

theorem new_block_hash_last (bc : Blockchain) (ts : String) (proof : Int) (lb : Block)
    (hlb : bc.chain.getLast? = some lb) :
    bc.new_block ts proof (some (.hstr (Blockchain.hash lb))) =
      some (Blockchain.sealPair bc ts proof (.hstr (Blockchain.hash lb))) := by
  by_cases hv : Blockchain.truthy (.hstr (Blockchain.hash lb)) = true
  · simp only [Blockchain.new_block, hv, if_true]
    rfl
  · simp only [Blockchain.new_block, hv, if_false, Bool.false_eq_true, hlb]
    rfl

/-- C1: every ledger reached from a fresh construction by any sequence
of mining operations satisfies the chain invariant — each block after
the genesis stores the hash of its predecessor and a proof valid against
the predecessor's proof. -/
theorem mining_chain_invariant (bc : Blockchain) (h : Blockchain.Reachable bc) :
    List.Chain' linkOK bc.chain := by
  induction h with
  | init ts0 =>
      have hg : (Blockchain.initBlockchain ts0).chain = [genesisBlock ts0] := rfl
      rw [hg]
      exact List.chain'_singleton _
  | mine ts nid bc bc' hr hstep ih =>
      obtain ⟨lb, idx, bc₁, blk, hex, hlast, htx, hnb⟩ := hstep
      obtain ⟨hchain, hnodes, hpool⟩ := new_transaction_parts bc "0" nid 1 idx bc₁ htx
      have hlast' : bc.chain.getLast? = some lb := hlast
      have hlb₁ : bc₁.chain.getLast? = some lb := by rw [hchain]; exact hlast'
      rw [new_block_hash_last bc₁ ts _ lb hlb₁] at hnb
      have hbc' : bc' =
          (Blockchain.sealPair bc₁ ts
            (Int.ofNat (Blockchain.proof_of_work lb.proof hex))
            (.hstr (Blockchain.hash lb))).2 := by
        have hpair := Option.some_inj.1 hnb
        rw [hpair]
      have hblkchain : bc'.chain = bc₁.chain ++
          [{ index := (bc₁.chain.length : Int) + 1, timestamp := ts,
             transactions := bc₁.current_transactions,
             proof := Int.ofNat (Blockchain.proof_of_work lb.proof hex),
             previous_hash := .hstr (Blockchain.hash lb) }] := by
        rw [hbc']; rfl
      rw [hblkchain, hchain]
      rw [List.chain'_append]
      refine ⟨ih, List.chain'_singleton _, ?_⟩
      intro x hx y hy
      rw [hlast'] at hx
      simp only [Option.mem_def, Option.some_inj] at hx
      simp only [List.head?_cons, Option.mem_def, Option.some_inj] at hy
      subst hx
      subst hy
      exact ⟨rfl, Nat.find_spec hex⟩

/-- Witness for C1: the freshly constructed ledger is reachable and its
one-block chain satisfies the invariant vacuously. -/
theorem mining_chain_invariant_witness :
    Blockchain.Reachable (Blockchain.initBlockchain "1.5") ∧
      List.Chain' linkOK (Blockchain.initBlockchain "1.5").chain :=
  ⟨Blockchain.Reachable.init "1.5",
    mining_chain_invariant (Blockchain.initBlockchain "1.5")
      (Blockchain.Reachable.init "1.5")⟩

/-! ## C3: `resolve_conflicts` adopts only strictly longer valid chains -/

theorem resolve_loop_sound :
    ∀ (rs : List Blockchain.FetchResult) (maxLen : Int) (best : Option (List Block))
      (out : Int × Option (List Block)),
      Blockchain.resolve_loop maxLen best rs = some out →
      (out.2 = best ∨
        ∃ len ch, some (len, ch) ∈ rs ∧ maxLen < len ∧
          Blockchain.valid_chain ch = some true ∧ out.2 = some ch) ∧
      ((∀ len ch, some (len, ch) ∈ rs →
          ¬(maxLen < len ∧ Blockchain.valid_chain ch = some true)) → out.2 = best) := by
  intro rs
  induction rs with
  | nil =>
      intro maxLen best out h
      simp only [Blockchain.resolve_loop, Option.some_inj] at h
      rw [← h]
      exact ⟨Or.inl rfl, fun _ => rfl⟩
  | cons r rest ih =>
      intro maxLen best out h
      cases r with
      | none =>
          simp only [Blockchain.resolve_loop] at h
          obtain ⟨hB, hC⟩ := ih maxLen best out h
          constructor
          · rcases hB with hB | ⟨len, ch, hmem, hlen, hval, hout⟩
            · exact Or.inl hB
            · exact Or.inr ⟨len, ch, List.mem_cons_of_mem _ hmem, hlen, hval, hout⟩
          · intro hall
            exact hC fun len ch hmem => hall len ch (List.mem_cons_of_mem _ hmem)
      | some p =>
          obtain ⟨len₀, ch₀⟩ := p
          simp only [Blockchain.resolve_loop] at h
          by_cases hlt : maxLen < len₀
          · rw [if_pos hlt] at h
            cases hvc : Blockchain.valid_chain ch₀ with
            | none => rw [hvc] at h; exact absurd h (by simp)
            | some b =>
                cases b with
                | true =>
                    rw [hvc] at h
                    obtain ⟨hB, _⟩ := ih len₀ (some ch₀) out h
                    constructor
                    · rcases hB with hB | ⟨len, ch, hmem, hlen, hval, hout⟩
                      · exact Or.inr ⟨len₀, ch₀, List.mem_cons_self _ _, hlt, hvc, hB⟩
                      · exact Or.inr ⟨len, ch, List.mem_cons_of_mem _ hmem,
                          lt_trans hlt hlen, hval, hout⟩
                    · intro hall
                      exact absurd ⟨hlt, hvc⟩ (hall len₀ ch₀ (List.mem_cons_self _ _))
                | false =>
                    rw [hvc] at h
                    obtain ⟨hB, hC⟩ := ih maxLen best out h
                    constructor
                    · rcases hB with hB | ⟨len, ch, hmem, hlen, hval, hout⟩
                      · exact Or.inl hB
                      · exact Or.inr ⟨len, ch, List.mem_cons_of_mem _ hmem, hlen, hval, hout⟩
                    · intro hall
                      exact hC fun len ch hmem => hall len ch (List.mem_cons_of_mem _ hmem)
          · rw [if_neg hlt] at h
            obtain ⟨hB, hC⟩ := ih maxLen best out h
            constructor
            · rcases hB with hB | ⟨len, ch, hmem, hlen, hval, hout⟩
              · exact Or.inl hB
              · exact Or.inr ⟨len, ch, List.mem_cons_of_mem _ hmem, hlen, hval, hout⟩
            · intro hall
              exact hC fun len ch hmem => hall len ch (List.mem_cons_of_mem _ hmem)

/-- C3: when `resolve_conflicts` completes, (a) erroring peers are
skipped (a `none` response changes nothing), (b) a `false` result leaves
the ledger untouched, (c) a `true` result means some peer's chain with
reported length strictly above the local chain's length and passing
`valid_chain` replaced the local chain (pool and node set untouched),
and (d) if no peer offers such a chain the result is `false`. -/
theorem resolve_conflicts_spec (bc : Blockchain) (rs : List Blockchain.FetchResult)
    (replaced : Bool) (bc' : Blockchain)
    (h : bc.resolve_conflicts rs = some (replaced, bc')) :
    (bc.resolve_conflicts (none :: rs) = bc.resolve_conflicts rs) ∧
      (replaced = false → bc' = bc) ∧
      (replaced = true →
        ∃ len ch, some (len, ch) ∈ rs ∧
          (bc.chain.length : Int) < len ∧ Blockchain.valid_chain ch = some true ∧
          bc' = { bc with chain := ch }) ∧
      ((∀ len ch, some (len, ch) ∈ rs →
          ¬((bc.chain.length : Int) < len ∧ Blockchain.valid_chain ch = some true)) →
        replaced = false) := by
  refine ⟨rfl, ?_⟩
  unfold Blockchain.resolve_conflicts at h
  cases hloop : Blockchain.resolve_loop (bc.chain.length : Int) none rs with
  | none => rw [hloop] at h; exact absurd h (by simp)
  | some out =>
      rw [hloop] at h
      obtain ⟨hB, hC⟩ := resolve_loop_sound rs (bc.chain.length : Int) none out hloop
      obtain ⟨ml, nc⟩ := out
      cases nc with
      | none =>
          simp only [Option.some_inj, Prod.mk.injEq] at h
          refine ⟨fun _ => h.2.symm, fun htrue => ?_, fun _ => h.1.symm⟩
          rw [← h.1] at htrue
          exact absurd htrue (by simp)
      | some ch =>
          rcases hB with hB | ⟨len, ch₂, hmem, hlen, hval, hout⟩
          · exact absurd hB (by simp)
          · have hch : ch₂ = ch := Option.some_inj.1 hout.symm
            subst hch
            have hne : ch₂.isEmpty = false := by
              cases ch₂ with
              | nil => rw [Blockchain.valid_chain] at hval; exact absurd hval (by simp)
              | cons a l => rfl
            dsimp only at h
            rw [hne] at h
            simp only [Bool.false_eq_true, if_false, Option.some_inj, Prod.mk.injEq] at h
            refine ⟨fun hfalse => ?_, fun _ => ⟨len, ch₂, hmem, hlen, hval, h.2.symm⟩,
              fun hall => ?_⟩
            · rw [← h.1] at hfalse
              exact absurd hfalse (by simp)
            · exact absurd (hC hall) (by simp)

/-- Witness for C3 on a fresh ledger with no peers: the call completes
with `false` and the ledger unchanged. -/
theorem resolve_conflicts_spec_witness :
    (Blockchain.initBlockchain "1.5").resolve_conflicts [] =
        some (false, Blockchain.initBlockchain "1.5") ∧
      ((Blockchain.initBlockchain "1.5").resolve_conflicts (none :: []) =
          (Blockchain.initBlockchain "1.5").resolve_conflicts []) ∧
        (false = false → Blockchain.initBlockchain "1.5" = Blockchain.initBlockchain "1.5") ∧
        (false = true →
          ∃ len ch, some (len, ch) ∈ ([] : List Blockchain.FetchResult) ∧
            ((Blockchain.initBlockchain "1.5").chain.length : Int) < len ∧
            Blockchain.valid_chain ch = some true ∧
            Blockchain.initBlockchain "1.5" =
              { Blockchain.initBlockchain "1.5" with chain := ch }) ∧
        ((∀ len ch, some (len, ch) ∈ ([] : List Blockchain.FetchResult) →
            ¬(((Blockchain.initBlockchain "1.5").chain.length : Int) < len ∧
              Blockchain.valid_chain ch = some true)) → false = false) :=
  ⟨rfl, resolve_conflicts_spec (Blockchain.initBlockchain "1.5") [] false
    (Blockchain.initBlockchain "1.5") rfl⟩
